import Mathlib

/-!
Verification of the commit classification and deduplication pipeline of the
ChangelogCraft repository (`src/frontend/src/lib/utils/commit-parser.ts`).

Strings are modelled as `List Char`; JavaScript's `String.prototype.includes`
is substring containment, `toLowerCase` is (ASCII) character-wise lowering,
and `trim` strips leading/trailing whitespace.  Numbers produced by
`calculateSimilarity` are modelled as exact rationals.
-/

/-- Strings from the source are modelled as lists of characters. -/
abbrev Str := List Char

/-- JavaScript whitespace (the ASCII part), as matched by `\s`, `trim()`. -/
def isJsWhitespace (c : Char) : Bool :=
  c == ' ' || c == '\t' || c == '\n' || c == '\r' || c == '\x0b' || c == '\x0c'

/-- Model of `message.toLowerCase()` (ASCII lowering). -/
def toLowerCase (s : Str) : Str := s.map Char.toLower

/-- Model of `s.trim()`: strip whitespace from both ends. -/
def trimStr (s : Str) : Str :=
  ((s.dropWhile isJsWhitespace).reverse.dropWhile isJsWhitespace).reverse

/-- Model of `s.includes(pat)`: substring containment. -/
def strIncludes (s pat : Str) : Bool := decide (pat <:+: s)

/-- Model of `message.split('\n')[0]`. -/
def firstLineOf (message : Str) : Str := message.takeWhile (fun c => c != '\n')

/-- Model of `lines.slice(1).join('\n')`: everything after the first newline
(empty when there is no newline). -/
def afterFirstLine (message : Str) : Str :=
  (message.dropWhile (fun c => c != '\n')).drop 1

/-- A word character, as matched by the regex class `\w`. -/
def isWordChar (c : Char) : Bool := c.isAlphanum || c == '_'

/-- Result of the parse of `commit-parser.ts`:
`interface ParsedCommit`. -/
structure ParsedCommit where
  type : Option Str
  scope : Option Str
  description : Str
  body : Option Str
  breaking : Bool
  raw : Str
deriving DecidableEq

/-- The capture groups of the header regex
`/^(\w+)(?:\(([^)]+)\))?(!)?:\s*(.+)$/`. -/
structure ConventionalMatch where
  ctype : Str
  scope : Option Str
  bang : Bool
  description : Str
deriving DecidableEq

/-- Matching of the first line against the anchored regex
`/^(\w+)(?:\(([^)]+)\))?(!)?:\s*(.+)$/`.  The regex is deterministic on its
input: `\w+` must be maximal (a shorter match leaves a word character where
`(`, `!` or `:` is required), the optional scope group `\(([^)]+)\)` succeeds
exactly when a `(` directly follows the type, holds at least one non-`)`
character and is closed by `)` (when a `(` follows the type but the group
fails, the remaining alternatives cannot consume the `(`), and `\s*(.+)$`
takes everything after the greedy whitespace run — except that when the rest
of the line is non-empty pure whitespace, backtracking leaves exactly the
last character for `(.+)`.  Since `.` matches neither `\n` (absent from the
first line) nor `\r`, a carriage return in the would-be description makes
the whole regex fail. -/
def matchConventional (line : Str) : Option ConventionalMatch :=
  let ty := line.takeWhile isWordChar
  if ty.isEmpty then none
  else
    let rest1 := line.dropWhile isWordChar
    let afterScope : Option (Option Str × Str) :=
      match rest1 with
      | c :: r =>
        if c = '(' then
          let sc := r.takeWhile (fun d => d != ')')
          if sc.isEmpty then none
          else
            match r.dropWhile (fun d => d != ')') with
            | c2 :: r2 => if c2 = ')' then some (some sc, r2) else none
            | [] => none
        else some (none, rest1)
      | [] => some (none, rest1)
    match afterScope with
    | none => none
    | some (sc, rest2) =>
      let bangRest : Bool × Str :=
        match rest2 with
        | c :: r => if c = '!' then (true, r) else (false, rest2)
        | [] => (false, rest2)
      match bangRest.2 with
      | c :: rest4 =>
        if c = ':' then
          let desc := rest4.dropWhile isJsWhitespace
          if desc.isEmpty then
            if rest4.isEmpty then none
            else if rest4.getLastD ' ' = '\r' then none
            else some ⟨ty, sc, bangRest.1, [rest4.getLastD ' ']⟩
          else if desc.any (fun d => d == '\r') then none
          else some ⟨ty, sc, bangRest.1, desc⟩
        else none
      | [] => none

/-- Translation of `parseConventionalCommit` from `commit-parser.ts`. -/
def parseConventionalCommit (message : Str) : ParsedCommit :=
  let raw := message
  let firstLine := firstLineOf message
  let body :=
    let b := trimStr (afterFirstLine message)
    if b.isEmpty then none else some b
  let breaking :=
    strIncludes message ("BREAKING CHANGE".toList) || strIncludes firstLine ("!:".toList)
  match matchConventional firstLine with
  | some m => ⟨some m.ctype, m.scope, m.description, body, breaking || m.bang, raw⟩
  | none => ⟨none, none, firstLine, body, breaking, raw⟩

/-- Translation of `type ChangelogCategory` from `types/index.ts`: the six fixed
categories. -/
inductive ChangelogCategory where
  | features
  | bug_fixes
  | breaking_changes
  | documentation
  | style_refactor
  | chores
deriving DecidableEq

/-- The own entries of the `typeMap` record of `inferCategory`
(`commit-parser.ts:71-86`).  JavaScript bracket lookup on the object literal
also reaches truthy keys inherited from `Object.prototype`; that full lookup
is modelled by `typeMapGet` below. -/
def typeMap : List (Str × ChangelogCategory) :=
  [("feat".toList, .features),
   ("feature".toList, .features),
   ("fix".toList, .bug_fixes),
   ("bugfix".toList, .bug_fixes),
   ("docs".toList, .documentation),
   ("doc".toList, .documentation),
   ("style".toList, .style_refactor),
   ("refactor".toList, .style_refactor),
   ("perf".toList, .features),
   ("test".toList, .chores),
   ("build".toList, .chores),
   ("ci".toList, .chores),
   ("chore".toList, .chores),
   ("revert".toList, .chores)]

/-- The keyword-based fallback of `inferCategory` (the chain of
`lowerMessage.includes(...)` tests, in source order). -/
def keywordCategory (lowerMessage : Str) : ChangelogCategory :=
  if strIncludes lowerMessage ("breaking".toList) ||
     strIncludes lowerMessage ("breaking change".toList) ||
     strIncludes lowerMessage ("deprecated".toList) then .breaking_changes
  else if strIncludes lowerMessage ("add".toList) ||
     strIncludes lowerMessage ("implement".toList) ||
     strIncludes lowerMessage ("create".toList) ||
     strIncludes lowerMessage ("new feature".toList) ||
     strIncludes lowerMessage ("enhance".toList) then .features
  else if strIncludes lowerMessage ("fix".toList) ||
     strIncludes lowerMessage ("bug".toList) ||
     strIncludes lowerMessage ("resolve".toList) ||
     strIncludes lowerMessage ("patch".toList) ||
     strIncludes lowerMessage ("correct".toList) then .bug_fixes
  else if strIncludes lowerMessage ("doc".toList) ||
     strIncludes lowerMessage ("readme".toList) ||
     strIncludes lowerMessage ("comment".toList) ||
     strIncludes lowerMessage ("documentation".toList) then .documentation
  else if strIncludes lowerMessage ("refactor".toList) ||
     strIncludes lowerMessage ("cleanup".toList) ||
     strIncludes lowerMessage ("reorganize".toList) ||
     strIncludes lowerMessage ("style".toList) ||
     strIncludes lowerMessage ("format".toList) then .style_refactor
  else .chores

/-- Translation of `inferCategory` from `commit-parser.ts` with the
`typeMap` lookup idealized to the record's own entries, so it is total and
always returns one of the six categories.  The faithful JavaScript-object
semantics, under which the prototype-inherited keys `constructor` and
`__proto__` pass the truthiness test and a non-category value is returned,
is `inferCategoryJs` below. -/
def inferCategory (message : Str) : ChangelogCategory :=
  let parsed := parseConventionalCommit message
  let lowerMessage := toLowerCase message
  if parsed.breaking then .breaking_changes
  else
    match parsed.type with
    | some t =>
      match List.lookup (toLowerCase t) typeMap with
      | some cat => cat
      | none => keywordCategory lowerMessage
    | none => keywordCategory lowerMessage

/-- The `defaultExclusions` list of `shouldExcludeCommit`. -/
def defaultExclusions : List Str :=
  [("merge".toList),
   ("merge branch".toList),
   ("merge pull request".toList),
   ("wip".toList),
   ("work in progress".toList),
   ("bump version".toList),
   ("update dependencies".toList),
   ("update package".toList),
   ("fix typo".toList),
   ("typo".toList),
   ("update .gitignore".toList),
   ("initial commit".toList)]

/-- Translation of `shouldExcludeCommit` from `commit-parser.ts` (the optional
`excludePatterns` argument defaults to `[]`). -/
def shouldExcludeCommit (message : Str) (excludePatterns : List Str) : Bool :=
  let lowerMessage := toLowerCase message
  let allExclusions := (defaultExclusions ++ excludePatterns).map toLowerCase
  allExclusions.any (fun pattern => strIncludes lowerMessage pattern)

/-- The inner `commit` object of a `GitHubCommit` (`types/index.ts`);
only the fields the pipeline reads are modelled. -/
structure CommitDetail where
  message : Str
deriving DecidableEq

/-- Translation of `interface GitHubCommit` (`types/index.ts`); only the fields the
pipeline reads are modelled. -/
structure GitHubCommit where
  sha : Str
  commit : CommitDetail
  parents : List Str
deriving DecidableEq

/-- Translation of `getCommitSummary`: trimmed first line of the message. -/
def getCommitSummary (message : Str) : Str := trimStr (firstLineOf message)

/-- The `grouped` record of `groupCommitsByCategory`:
`Record<ChangelogCategory, GitHubCommit[]>` with the six fixed keys. -/
structure GroupedCommits where
  features : List GitHubCommit
  bug_fixes : List GitHubCommit
  breaking_changes : List GitHubCommit
  documentation : List GitHubCommit
  style_refactor : List GitHubCommit
  chores : List GitHubCommit
deriving DecidableEq

/-- Read the group of one category. -/
def GroupedCommits.get (g : GroupedCommits) : ChangelogCategory → List GitHubCommit
  | .features => g.features
  | .bug_fixes => g.bug_fixes
  | .breaking_changes => g.breaking_changes
  | .documentation => g.documentation
  | .style_refactor => g.style_refactor
  | .chores => g.chores

/-- The initial `grouped` record (six empty lists). -/
def emptyGrouped : GroupedCommits := ⟨[], [], [], [], [], []⟩

/-- Model of `grouped[category].push(commit)`. -/
def pushCommit (g : GroupedCommits) (cat : ChangelogCategory) (c : GitHubCommit) :
    GroupedCommits :=
  match cat with
  | .features => { g with features := g.features ++ [c] }
  | .bug_fixes => { g with bug_fixes := g.bug_fixes ++ [c] }
  | .breaking_changes => { g with breaking_changes := g.breaking_changes ++ [c] }
  | .documentation => { g with documentation := g.documentation ++ [c] }
  | .style_refactor => { g with style_refactor := g.style_refactor ++ [c] }
  | .chores => { g with chores := g.chores ++ [c] }

/-- Translation of `groupCommitsByCategory` from `commit-parser.ts`, over
the idealized total `inferCategory`.  The faithful version
`groupCommitsByCategoryJs` below models the `TypeError` the code throws when
`inferCategory` returns a non-category value. -/
def groupCommitsByCategory (commits : List GitHubCommit) (excludePatterns : List Str) :
    GroupedCommits :=
  commits.foldl
    (fun g c =>
      if shouldExcludeCommit c.commit.message excludePatterns then g
      else pushCommit g (inferCategory c.commit.message) c)
    emptyGrouped

/-- All-lowercase property names that a plain object literal inherits from
`Object.prototype` with truthy values: `constructor` (the `Object`
constructor function) and `__proto__` (the object's prototype,
`Object.prototype` itself).  The other inherited names (`toString`,
`valueOf`, `hasOwnProperty`, `isPrototypeOf`, `propertyIsEnumerable`,
`toLocaleString`, `__defineGetter__`, `__defineSetter__`,
`__lookupGetter__`, `__lookupSetter__`) contain upper-case letters, which
the lower-cased lookup key produced by `parsed.type.toLowerCase()` can never
equal. -/
def protoKeys : List Str := [("constructor".toList), ("__proto__".toList)]

/-- A value the code can read from the `typeMap` object: one of the six
category strings stored in the record, or a truthy non-category object
inherited from `Object.prototype`. -/
inductive JsCategoryValue where
  | category (c : ChangelogCategory)
  | protoValue (key : Str)
deriving DecidableEq

/-- JavaScript bracket lookup `typeMap[key]` combined with the truthiness
test of `inferCategory` (`commit-parser.ts:88`): own record entries shadow
the prototype chain; every reachable value (a nonempty category string, the
`Object` constructor, `Object.prototype`) is truthy, and `none` models a
falsy `undefined`. -/
def typeMapGet (key : Str) : Option JsCategoryValue :=
  match List.lookup key typeMap with
  | some c => some (JsCategoryValue.category c)
  | none => if key ∈ protoKeys then some (JsCategoryValue.protoValue key) else none

/-- Variant of `inferCategory` with the faithful JavaScript object semantics
of the `typeMap` lookup: for a parsed type whose lower-casing is a
prototype-inherited key, the truthy lookup makes the function return that
non-category value. -/
def inferCategoryJs (message : Str) : JsCategoryValue :=
  let parsed := parseConventionalCommit message
  let lowerMessage := toLowerCase message
  if parsed.breaking then JsCategoryValue.category ChangelogCategory.breaking_changes
  else
    match parsed.type with
    | some t =>
      match typeMapGet (toLowerCase t) with
      | some v => v
      | none => JsCategoryValue.category (keywordCategory lowerMessage)
    | none => JsCategoryValue.category (keywordCategory lowerMessage)

/-- The loop of `groupCommitsByCategory` with the faithful JavaScript
semantics: when `inferCategory` yields a non-category value,
`grouped[category]` is `undefined` and `.push` throws a `TypeError`,
modelled as `none` (the loop aborts, no grouping is produced). -/
def groupAuxJs (excludePatterns : List Str) :
    List GitHubCommit → GroupedCommits → Option GroupedCommits
  | [], g => some g
  | c :: cs, g =>
    if shouldExcludeCommit c.commit.message excludePatterns then
      groupAuxJs excludePatterns cs g
    else
      match inferCategoryJs c.commit.message with
      | JsCategoryValue.category cat => groupAuxJs excludePatterns cs (pushCommit g cat c)
      | JsCategoryValue.protoValue _ => none

/-- Variant of `groupCommitsByCategory` with the faithful JavaScript
semantics of the category lookup (`none` models the thrown `TypeError`). -/
def groupCommitsByCategoryJs (commits : List GitHubCommit) (excludePatterns : List Str) :
    Option GroupedCommits :=
  groupAuxJs excludePatterns commits emptyGrouped

/-- The classic Levenshtein edit distance (single-character insertion,
deletion, substitution), as a recurrence on first characters. -/
def levenshteinRec : List Char → List Char → Nat
  | [], ys => ys.length
  | x :: xs, [] => (x :: xs).length
  | x :: xs, y :: ys =>
    if x = y then levenshteinRec xs ys
    else
      min (levenshteinRec xs ys)
        (min (levenshteinRec (x :: xs) ys) (levenshteinRec xs (y :: ys))) + 1
termination_by xs ys => xs.length + ys.length
decreasing_by all_goals (simp only [List.length_cons]; omega)

/-- One row-filling pass of the `getEditDistance` matrix: given the previous
row starting at column `j - 1` (`prev`), the current row's entry at column
`j - 1` (`left`), and the remaining characters of `str1` (`suf`), produce the
current row's entries from column `j` on.  Each cell is
`min(sub + 1, ins + 1, del + 1)` with `sub = matrix[i-1][j-1]`,
`ins = matrix[i][j-1]`, `del = matrix[i-1][j]`, except that equal characters
copy `matrix[i-1][j-1]`. -/
def levRowAux (c : Char) : Str → List Nat → Nat → List Nat
  | [], _, _ => []
  | sx :: sxs, prev, left =>
    match prev with
    | [] => []
    | p :: ps =>
      let cur := if sx = c then p else min (p + 1) (min (left + 1) (ps.headD 0 + 1))
      cur :: levRowAux c sxs ps cur

/-- Translation of `getEditDistance` from `commit-parser.ts`: the
dynamic-programming matrix,
built row by row.  Row `0` is `[0, 1, ..., str1.length]`; each later row `i`
starts with `matrix[i][0] = i` and is filled left to right by `levRowAux`;
the answer is `matrix[str2.length][str1.length]`, the last entry of the final
row. -/
def getEditDistance (str1 str2 : Str) : Nat :=
  let row0 : List Nat := List.range (str1.length + 1)
  let finalRow :=
    str2.foldl
      (fun prev c => (prev.headD 0 + 1) :: levRowAux c str1 prev (prev.headD 0 + 1)) row0
  finalRow.getLastD 0

/-- Distance between two strings in the matrix's orientation: the recurrence
consumes the *last* characters of the prefixes, i.e. the first characters of
the reversed strings. -/
def prefixDist (u v : Str) : Nat := levenshteinRec u.reverse v.reverse

/-- The intended contents of one matrix row, from column `pre.length` on:
entry `j` is the distance between `pre ++ (suf.take j)` and the processed
part `done` of `str2`. -/
def rowSpec : Str → Str → Str → List Nat
  | [], pre, done => [prefixDist pre done]
  | sx :: sxs, pre, done => prefixDist pre done :: rowSpec sxs (pre ++ [sx]) done

/-- Translation of `calculateSimilarity` from `commit-parser.ts`, with the
floating-point
quotient modelled as an exact rational. -/
def calculateSimilarity (str1 str2 : Str) : ℚ :=
  let longer := if str2.length < str1.length then str1 else str2
  let shorter := if str2.length < str1.length then str2 else str1
  if longer.length = 0 then 1
  else ((longer.length : ℚ) - (getEditDistance longer shorter : ℚ)) / (longer.length : ℚ)

/-- The similarity value as the spec writes it:
`(max(len(a), len(b)) − levenshtein(a, b)) / max(len(a), len(b))`, defined as
`1` when both strings are empty. -/
def similaritySpec (a b : Str) : ℚ :=
  if max a.length b.length = 0 then 1
  else
    (((max a.length b.length : ℕ) : ℚ) - (levenshteinRec a b : ℚ)) /
      ((max a.length b.length : ℕ) : ℚ)

/-- The duplicate test of `deduplicateCommits`:
`calculateSimilarity(summary, seenSummary) > 0.8`. -/
def isDuplicateOf (summary seenSummary : Str) : Bool :=
  decide ((0.8 : ℚ) < calculateSimilarity summary seenSummary)

/-- The lower-cased trimmed first line used as the dedup key:
`getCommitSummary(commit.commit.message).toLowerCase()`. -/
def summaryKey (c : GitHubCommit) : Str := toLowerCase (getCommitSummary c.commit.message)

/-- The loop of `deduplicateCommits`, with the `seen` set carried explicitly
as the list of summaries of the commits kept so far. -/
def deduplicateAux (seen : List Str) : List GitHubCommit → List GitHubCommit
  | [] => []
  | c :: cs =>
    if seen.any (fun s => isDuplicateOf (summaryKey c) s) then deduplicateAux seen cs
    else c :: deduplicateAux (summaryKey c :: seen) cs

/-- Translation of `deduplicateCommits` from `commit-parser.ts`. -/
def deduplicateCommits (commits : List GitHubCommit) : List GitHubCommit :=
  deduplicateAux [] commits

/-- An integer-arithmetic version of the duplicate test, used to evaluate the
rational comparison on concrete inputs:
`(m − d) / m > 4/5  ↔  4·m < 5·(m − d)` for `m > 0`, and the similarity of
two empty strings is `1 > 0.8`. -/
def isDuplicateOfExec (a b : Str) : Bool :=
  let m := max a.length b.length
  if m = 0 then true
  else decide (4 * m < 5 * (m - getEditDistance a b))

/-- Variant of `deduplicateAux` with the executable duplicate test. -/
def deduplicateAuxExec (seen : List Str) : List GitHubCommit → List GitHubCommit
  | [] => []
  | c :: cs =>
    if seen.any (fun s => isDuplicateOfExec (summaryKey c) s) then deduplicateAuxExec seen cs
    else c :: deduplicateAuxExec (summaryKey c :: seen) cs

/-- The keep policy exactly as the spec words it: walk the commits in order,
keep a commit unless its summary has similarity above `0.8` with the summary
of some earlier *kept* commit (`kept` collects the kept commits in order). -/
def dedupKeepSpec (kept : List GitHubCommit) : List GitHubCommit → List GitHubCommit
  | [] => []
  | c :: cs =>
    if kept.any (fun k => isDuplicateOf (summaryKey c) (summaryKey k)) then
      dedupKeepSpec kept cs
    else c :: dedupKeepSpec (kept ++ [c]) cs

/-- The lower-cased *untrimmed* first line of a commit message — the dedup
key as the spec's words describe it (the spec does not mention the `trim`). -/
def rawFirstLineKey (c : GitHubCommit) : Str := toLowerCase (firstLineOf c.commit.message)

/-- The bang-before-colon marker as the spec describes it: the structured
header form `type[(scope)][!]: description` matches with the `!` present. -/
def headerBang (line : Str) : Bool :=
  match matchConventional line with
  | some m => m.bang
  | none => false

/-- All keywords of the fallback scan of `inferCategory`, in source order. -/
def fallbackKeywords : List Str :=
  [("breaking".toList), ("breaking change".toList), ("deprecated".toList),
   ("add".toList), ("implement".toList), ("create".toList), ("new feature".toList),
   ("enhance".toList),
   ("fix".toList), ("bug".toList), ("resolve".toList), ("patch".toList),
   ("correct".toList),
   ("doc".toList), ("readme".toList), ("comment".toList), ("documentation".toList),
   ("refactor".toList), ("cleanup".toList), ("reorganize".toList), ("style".toList),
   ("format".toList)]

/-- The message matches none of the fallback keywords of `inferCategory`. -/
def hitsNoFallbackKeyword (message : Str) : Bool :=
  fallbackKeywords.all (fun k => !(strIncludes (toLowerCase message) k))

/-- Example commit with summary "Fix login bug" (spec §8, dedup example). -/
def fixLoginCommit : GitHubCommit := ⟨"s1".toList, ⟨"Fix login bug".toList⟩, []⟩

/-- Example commit with summary "Fix login bug!!" (spec §8, dedup example). -/
def fixLoginBangCommit : GitHubCommit := ⟨"s2".toList, ⟨"Fix login bug!!".toList⟩, []⟩

/-- Example commit with summary "Add feature" (spec §8, dedup example). -/
def addFeatureCommit : GitHubCommit := ⟨"s3".toList, ⟨"Add feature".toList⟩, []⟩

/-- Commit whose message has a leading space in its first line. -/
def cexCommitA : GitHubCommit := ⟨"a1".toList, ⟨" a".toList⟩, []⟩

/-- Commit whose message is the single character `a`. -/
def cexCommitB : GitHubCommit := ⟨"b2".toList, ⟨"a".toList⟩, []⟩

/-- Example commit with message "Add dark mode toggle". -/
def darkModeCommit : GitHubCommit := ⟨"d1".toList, ⟨"Add dark mode toggle".toList⟩, []⟩

/-- Commit whose message `constructor: x` parses with type `constructor`,
the prototype-inherited key of the `typeMap` object. -/
def constructorCommit : GitHubCommit := ⟨"p1".toList, ⟨"constructor: x".toList⟩, []⟩


theorem levenshteinRec_nil_left (ys : Str) : levenshteinRec [] ys = ys.length := by
  simp [levenshteinRec]

theorem levenshteinRec_nil_right (xs : Str) : levenshteinRec xs [] = xs.length := by
  cases xs <;> simp [levenshteinRec]

theorem levenshteinRec_cons_cons (x y : Char) (xs ys : Str) :
    levenshteinRec (x :: xs) (y :: ys) =
      if x = y then levenshteinRec xs ys
      else
        min (levenshteinRec xs ys)
          (min (levenshteinRec (x :: xs) ys) (levenshteinRec xs (y :: ys))) + 1 := by
  rw [levenshteinRec]

theorem levenshteinRec_self (xs : Str) : levenshteinRec xs xs = 0 := by
  induction xs with
  | nil => simp [levenshteinRec]
  | cons x xs ih => rw [levenshteinRec_cons_cons]; simp [ih]

theorem levenshteinRec_le_max (xs : Str) :
    ∀ ys : Str, levenshteinRec xs ys ≤ max xs.length ys.length := by
  induction xs with
  | nil => intro ys; rw [levenshteinRec_nil_left]; omega
  | cons x xs ih =>
    intro ys
    cases ys with
    | nil => rw [levenshteinRec_nil_right]; omega
    | cons y ys =>
      rw [levenshteinRec_cons_cons]
      have h1 := ih ys
      by_cases hxy : x = y
      · simp only [if_pos hxy, List.length_cons]
        omega
      · simp only [if_neg hxy, List.length_cons]
        omega

theorem levenshteinRec_comm_aux :
    ∀ n (xs ys : Str), xs.length + ys.length ≤ n →
      levenshteinRec xs ys = levenshteinRec ys xs := by
  intro n
  induction n with
  | zero =>
    intro xs ys h
    have hx : xs = [] := List.eq_nil_of_length_eq_zero (by omega)
    have hy : ys = [] := List.eq_nil_of_length_eq_zero (by omega)
    subst hx; subst hy; rfl
  | succ n ih =>
    intro xs ys h
    cases xs with
    | nil => rw [levenshteinRec_nil_left, levenshteinRec_nil_right]
    | cons x xs =>
      cases ys with
      | nil => rw [levenshteinRec_nil_left, levenshteinRec_nil_right]
      | cons y ys =>
        simp only [List.length_cons] at h
        rw [levenshteinRec_cons_cons, levenshteinRec_cons_cons]
        have e1 : levenshteinRec xs ys = levenshteinRec ys xs := ih xs ys (by omega)
        have e2 : levenshteinRec (x :: xs) ys = levenshteinRec ys (x :: xs) :=
          ih _ _ (by simp only [List.length_cons]; omega)
        have e3 : levenshteinRec xs (y :: ys) = levenshteinRec (y :: ys) xs :=
          ih _ _ (by simp only [List.length_cons]; omega)
        by_cases hxy : x = y
        · subst hxy; simp only [if_pos]; exact e1
        · have hyx : ¬ y = x := fun hc => hxy hc.symm
          simp only [if_neg hxy, if_neg hyx]
          omega

theorem levenshteinRec_comm (xs ys : Str) : levenshteinRec xs ys = levenshteinRec ys xs :=
  levenshteinRec_comm_aux (xs.length + ys.length) xs ys le_rfl

theorem levenshteinRec_singleton (x : Char) (zs : Str) :
    levenshteinRec [x] zs = if x ∈ zs then zs.length - 1 else max zs.length 1 := by
  induction zs with
  | nil => rw [levenshteinRec_nil_right]; simp
  | cons z zs ih =>
    rw [levenshteinRec_cons_cons]
    by_cases hxz : x = z
    · subst hxz
      simp only [if_pos rfl, levenshteinRec_nil_left, List.mem_cons, true_or, if_pos,
        List.length_cons]
      omega
    · have hmem : (x ∈ z :: zs) ↔ (x ∈ zs) := by simp [List.mem_cons, hxz]
      simp only [if_neg hxz, levenshteinRec_nil_left, ih, hmem, List.length_cons]
      split_ifs with hx
      · have hpos : 0 < zs.length := List.length_pos_of_mem hx
        omega
      · omega

theorem levenshteinRec_snoc_nil_left (ys : Str) (x y : Char) :
    levenshteinRec [x] (ys ++ [y]) =
      if x = y then levenshteinRec [] ys
      else
        min (levenshteinRec [] ys)
          (min (levenshteinRec [x] ys) (levenshteinRec [] (ys ++ [y]))) + 1 := by
  have hpos : x ∈ ys → 0 < ys.length := List.length_pos_of_mem
  rw [levenshteinRec_singleton, levenshteinRec_singleton, levenshteinRec_nil_left,
    levenshteinRec_nil_left]
  simp only [List.mem_append, List.mem_singleton, List.length_append, List.length_singleton]
  by_cases hxy : x = y
  · simp only [hxy, or_true, if_true, if_pos]
    omega
  · simp only [hxy, or_false, if_false]
    by_cases hmem : x ∈ ys
    · have := hpos hmem
      simp only [if_pos hmem]
      omega
    · simp only [if_neg hmem]
      omega

theorem levenshteinRec_snoc_nil_right (xs : Str) (x y : Char) :
    levenshteinRec (xs ++ [x]) [y] =
      if x = y then levenshteinRec xs []
      else
        min (levenshteinRec xs [])
          (min (levenshteinRec (xs ++ [x]) []) (levenshteinRec xs [y])) + 1 := by
  have hpos : y ∈ xs → 0 < xs.length := List.length_pos_of_mem
  rw [levenshteinRec_comm (xs ++ [x]) [y], levenshteinRec_singleton,
    levenshteinRec_comm xs [y], levenshteinRec_singleton, levenshteinRec_nil_right,
    levenshteinRec_nil_right]
  simp only [List.mem_append, List.mem_singleton, List.length_append, List.length_singleton]
  by_cases hxy : x = y
  · simp only [hxy, or_true, if_true, if_pos]
    omega
  · have hyx : ¬ y = x := fun hc => hxy hc.symm
    simp only [hyx, or_false, if_neg hxy]
    by_cases hmem : y ∈ xs
    · have := hpos hmem
      simp only [if_pos hmem]
      omega
    · simp only [if_neg hmem]
      omega

set_option maxHeartbeats 1600000 in
theorem levenshteinRec_snoc_aux :
    ∀ n (xs ys : Str) (x y : Char), xs.length + ys.length ≤ n →
      levenshteinRec (xs ++ [x]) (ys ++ [y]) =
        if x = y then levenshteinRec xs ys
        else
          min (levenshteinRec xs ys)
            (min (levenshteinRec (xs ++ [x]) ys) (levenshteinRec xs (ys ++ [y]))) + 1 := by
  intro n
  induction n with
  | zero =>
    intro xs ys x y h
    have hx : xs = [] := List.eq_nil_of_length_eq_zero (by omega)
    have hy : ys = [] := List.eq_nil_of_length_eq_zero (by omega)
    subst hx; subst hy
    simpa using levenshteinRec_snoc_nil_left [] x y
  | succ n ih =>
    intro xs ys x y h
    cases xs with
    | nil => simpa using levenshteinRec_snoc_nil_left ys x y
    | cons a as =>
      cases ys with
      | nil => simpa using levenshteinRec_snoc_nil_right (a :: as) x y
      | cons b bs =>
        simp only [List.length_cons] at h
        have ih1 := ih as bs x y (by omega)
        have ih2 := ih (a :: as) bs x y (by simp only [List.length_cons]; omega)
        have ih3 := ih as (b :: bs) x y (by simp only [List.length_cons]; omega)
        simp only [List.cons_append] at ih1 ih2 ih3 ⊢
        rw [levenshteinRec_cons_cons a b (as ++ [x]) (bs ++ [y]),
          levenshteinRec_cons_cons a b as bs,
          levenshteinRec_cons_cons a b (as ++ [x]) bs,
          levenshteinRec_cons_cons a b as (bs ++ [y]),
          ih1, ih2, ih3]
        generalize levenshteinRec as bs = d1
        generalize levenshteinRec (a :: as) bs = d2
        generalize levenshteinRec as (b :: bs) = d3
        generalize levenshteinRec (as ++ [x]) bs = d4
        generalize levenshteinRec (a :: (as ++ [x])) bs = d5
        generalize levenshteinRec (as ++ [x]) (b :: bs) = d6
        generalize levenshteinRec as (bs ++ [y]) = d7
        generalize levenshteinRec (a :: as) (bs ++ [y]) = d8
        generalize levenshteinRec as (b :: (bs ++ [y])) = d9
        clear ih ih1 ih2 ih3 h
        split_ifs with h1 h2 <;>
          first
          | rfl
          | (apply le_antisymm <;>
              simp only [add_le_add_iff_right, le_min_iff, min_le_iff] <;> omega)

theorem levenshteinRec_snoc (xs ys : Str) (x y : Char) :
    levenshteinRec (xs ++ [x]) (ys ++ [y]) =
      if x = y then levenshteinRec xs ys
      else
        min (levenshteinRec xs ys)
          (min (levenshteinRec (xs ++ [x]) ys) (levenshteinRec xs (ys ++ [y]))) + 1 :=
  levenshteinRec_snoc_aux (xs.length + ys.length) xs ys x y le_rfl

theorem levenshteinRec_reverse_aux :
    ∀ n (xs ys : Str), xs.length + ys.length ≤ n →
      levenshteinRec xs.reverse ys.reverse = levenshteinRec xs ys := by
  intro n
  induction n with
  | zero =>
    intro xs ys h
    have hx : xs = [] := List.eq_nil_of_length_eq_zero (by omega)
    have hy : ys = [] := List.eq_nil_of_length_eq_zero (by omega)
    subst hx; subst hy; rfl
  | succ n ih =>
    intro xs ys h
    cases xs with
    | nil =>
      simp only [List.reverse_nil, levenshteinRec_nil_left, List.length_reverse]
    | cons a as =>
      cases ys with
      | nil =>
        simp only [List.reverse_nil, levenshteinRec_nil_right, List.length_reverse]
      | cons b bs =>
        simp only [List.length_cons] at h
        have e1 := ih as bs (by omega)
        have e2 := ih (a :: as) bs (by simp only [List.length_cons]; omega)
        have e3 := ih as (b :: bs) (by simp only [List.length_cons]; omega)
        simp only [List.reverse_cons] at e2 e3 ⊢
        rw [levenshteinRec_snoc, levenshteinRec_cons_cons, e1, e2, e3]

theorem levenshteinRec_reverse (xs ys : Str) :
    levenshteinRec xs.reverse ys.reverse = levenshteinRec xs ys :=
  levenshteinRec_reverse_aux (xs.length + ys.length) xs ys le_rfl

theorem prefixDist_nil_left (v : Str) : prefixDist [] v = v.length := by
  simp [prefixDist, levenshteinRec_nil_left]

theorem prefixDist_nil_right (u : Str) : prefixDist u [] = u.length := by
  simp [prefixDist, levenshteinRec_nil_right]

theorem prefixDist_snoc (u v : Str) (a c : Char) :
    prefixDist (u ++ [a]) (v ++ [c]) =
      if a = c then prefixDist u v
      else
        min (prefixDist u v)
          (min (prefixDist (u ++ [a]) v) (prefixDist u (v ++ [c]))) + 1 := by
  simp only [prefixDist, List.reverse_append, List.reverse_singleton, List.singleton_append]
  rw [levenshteinRec_cons_cons]

theorem rowSpec_head_cons (suf pre done : Str) :
    rowSpec suf pre done = prefixDist pre done :: (rowSpec suf pre done).tail := by
  cases suf <;> rfl

theorem rowSpec_headD (suf pre done : Str) :
    (rowSpec suf pre done).headD 0 = prefixDist pre done := by
  cases suf <;> rfl

theorem levRowAux_spec (c : Char) (str1 : Str) :
    ∀ (pre done : Str),
      levRowAux c str1 (rowSpec str1 pre done) (prefixDist pre (done ++ [c])) =
        (rowSpec str1 pre (done ++ [c])).tail := by
  induction str1 with
  | nil => intro pre done; rfl
  | cons sx sxs ih =>
    intro pre done
    simp only [rowSpec, levRowAux, rowSpec_headD]
    have hcur :
        (if sx = c then prefixDist pre done
         else
           min (prefixDist pre done + 1)
             (min (prefixDist pre (done ++ [c]) + 1) (prefixDist (pre ++ [sx]) done + 1))) =
        prefixDist (pre ++ [sx]) (done ++ [c]) := by
      rw [prefixDist_snoc]
      by_cases h : sx = c
      · simp [h]
      · simp only [if_neg h]
        generalize prefixDist pre done = e1
        generalize prefixDist pre (done ++ [c]) = e2
        generalize prefixDist (pre ++ [sx]) done = e3
        apply le_antisymm <;>
          simp only [add_le_add_iff_right, le_min_iff, min_le_iff] <;> omega
    rw [hcur, ih (pre ++ [sx]) done, ← rowSpec_head_cons]
    rfl

theorem foldl_rowSpec (str1 : Str) :
    ∀ (rest done : Str),
      rest.foldl
        (fun prev c => (prev.headD 0 + 1) :: levRowAux c str1 prev (prev.headD 0 + 1))
        (rowSpec str1 [] done) = rowSpec str1 [] (done ++ rest) := by
  intro rest
  induction rest with
  | nil => intro done; simp
  | cons c cs ih =>
    intro done
    rw [List.foldl_cons, rowSpec_headD]
    have h1 : prefixDist [] done + 1 = prefixDist [] (done ++ [c]) := by
      simp [prefixDist_nil_left, List.length_append]
    rw [h1, levRowAux_spec c str1 [] done, ← rowSpec_head_cons, ih (done ++ [c])]
    congr 1
    simp

theorem rowSpec_zero (suf : Str) :
    ∀ pre : Str, rowSpec suf pre [] = List.range' pre.length (suf.length + 1) := by
  induction suf with
  | nil =>
    intro pre
    simp [rowSpec, prefixDist_nil_right]
  | cons sx sxs ih =>
    intro pre
    rw [List.range'_succ]
    simp only [rowSpec, prefixDist_nil_right, List.length_cons]
    rw [ih (pre ++ [sx])]
    simp [List.length_append]

theorem rowSpec_getLastD (suf : Str) :
    ∀ (pre done : Str) (dflt : Nat),
      (rowSpec suf pre done).getLastD dflt = prefixDist (pre ++ suf) done := by
  induction suf with
  | nil =>
    intro pre done dflt
    simp [rowSpec]
  | cons sx sxs ih =>
    intro pre done dflt
    simp only [rowSpec, List.getLastD_cons]
    rw [ih (pre ++ [sx]) done]
    simp

theorem getEditDistance_eq (str1 str2 : Str) :
    getEditDistance str1 str2 = levenshteinRec str1 str2 := by
  have h0 : List.range (str1.length + 1) = rowSpec str1 [] [] := by
    rw [rowSpec_zero str1 [], List.range_eq_range']
    rfl
  show (str2.foldl
      (fun prev c => (prev.headD 0 + 1) :: levRowAux c str1 prev (prev.headD 0 + 1))
      (List.range (str1.length + 1))).getLastD 0 = levenshteinRec str1 str2
  rw [h0, foldl_rowSpec str1 str2 [], List.nil_append, rowSpec_getLastD str1 [] str2,
    List.nil_append]
  show levenshteinRec str1.reverse str2.reverse = levenshteinRec str1 str2
  exact levenshteinRec_reverse str1 str2

theorem getEditDistance_comm (a b : Str) : getEditDistance a b = getEditDistance b a := by
  rw [getEditDistance_eq, getEditDistance_eq, levenshteinRec_comm]

theorem getEditDistance_le_max (a b : Str) :
    getEditDistance a b ≤ max a.length b.length := by
  rw [getEditDistance_eq]
  exact levenshteinRec_le_max a b

theorem getEditDistance_self (a : Str) : getEditDistance a a = 0 := by
  rw [getEditDistance_eq]
  exact levenshteinRec_self a

theorem calculateSimilarity_eq (a b : Str) : calculateSimilarity a b = similaritySpec a b := by
  by_cases h : b.length < a.length
  · have hm : max a.length b.length = a.length := Nat.max_eq_left (le_of_lt h)
    simp only [calculateSimilarity, similaritySpec, if_pos h, hm, getEditDistance_eq]
  · have hle : a.length ≤ b.length := le_of_not_lt h
    have hm : max a.length b.length = b.length := Nat.max_eq_right hle
    simp only [calculateSimilarity, similaritySpec, if_neg h, hm, getEditDistance_eq,
      levenshteinRec_comm b a]

theorem similaritySpec_nonneg (a b : Str) : 0 ≤ similaritySpec a b := by
  unfold similaritySpec
  split
  · norm_num
  · apply div_nonneg
    · rw [sub_nonneg]
      exact_mod_cast levenshteinRec_le_max a b
    · positivity

theorem similaritySpec_le_one (a b : Str) : similaritySpec a b ≤ 1 := by
  unfold similaritySpec
  split
  · norm_num
  · rename_i hm
    have hpos : (0 : ℚ) < ((max a.length b.length : ℕ) : ℚ) := by
      exact_mod_cast Nat.pos_of_ne_zero hm
    rw [div_le_one hpos]
    have : (0 : ℚ) ≤ (levenshteinRec a b : ℚ) := by positivity
    linarith

theorem similaritySpec_self (a : Str) : similaritySpec a a = 1 := by
  unfold similaritySpec
  rw [levenshteinRec_self]
  simp only [max_self, Nat.cast_zero, sub_zero]
  split
  · rfl
  · rename_i hm
    have hpos : (0 : ℚ) < ((a.length : ℕ) : ℚ) := by
      exact_mod_cast Nat.pos_of_ne_zero hm
    exact div_self (ne_of_gt hpos)

theorem simRatio_gt_iff (d m : ℕ) (hd : d ≤ m) (hm : 0 < m) :
    ((0.8 : ℚ) < ((m : ℚ) - (d : ℚ)) / (m : ℚ)) ↔ (4 * m < 5 * (m - d)) := by
  rw [lt_div_iff₀ (by positivity)]
  constructor
  · intro h
    have h2 : ((4 * m : ℕ) : ℚ) < ((5 * (m - d) : ℕ) : ℚ) := by
      push_cast [hd]
      norm_num at h
      linarith
    exact_mod_cast h2
  · intro h
    have h2 : ((4 * m : ℕ) : ℚ) < ((5 * (m - d) : ℕ) : ℚ) := by exact_mod_cast h
    push_cast [hd] at h2
    norm_num
    linarith

theorem isDuplicateOf_eq_exec (a b : Str) : isDuplicateOf a b = isDuplicateOfExec a b := by
  unfold isDuplicateOf isDuplicateOfExec
  rw [calculateSimilarity_eq]
  by_cases hm : max a.length b.length = 0
  · simp only [similaritySpec, if_pos hm]
    rw [decide_eq_true_eq]
    norm_num
  · have hmpos : 0 < max a.length b.length := Nat.pos_of_ne_zero hm
    have hd : levenshteinRec a b ≤ max a.length b.length := levenshteinRec_le_max a b
    simp only [similaritySpec, if_neg hm, getEditDistance_eq]
    rw [decide_eq_decide]
    exact simRatio_gt_iff (levenshteinRec a b) (max a.length b.length) hd hmpos

theorem deduplicateAux_sublist :
    ∀ (cs : List GitHubCommit) (seen : List Str), (deduplicateAux seen cs).Sublist cs := by
  intro cs
  induction cs with
  | nil => intro seen; simp [deduplicateAux]
  | cons c cs ih =>
    intro seen
    simp only [deduplicateAux]
    split
    · exact (ih seen).cons c
    · exact (ih (summaryKey c :: seen)).cons₂ c

theorem deduplicateAux_eq_keepSpec :
    ∀ (cs : List GitHubCommit) (seen : List Str) (kept : List GitHubCommit),
      (∀ s, s ∈ seen ↔ s ∈ kept.map summaryKey) →
      deduplicateAux seen cs = dedupKeepSpec kept cs := by
  intro cs
  induction cs with
  | nil => intro seen kept _; rfl
  | cons c cs ih =>
    intro seen kept h
    have hany :
        (seen.any fun s => isDuplicateOf (summaryKey c) s) =
          (kept.any fun k => isDuplicateOf (summaryKey c) (summaryKey k)) := by
      rw [Bool.eq_iff_iff]
      simp only [List.any_eq_true]
      constructor
      · rintro ⟨s, hs, hdup⟩
        obtain ⟨k, hk, rfl⟩ := List.mem_map.mp ((h s).mp hs)
        exact ⟨k, hk, hdup⟩
      · rintro ⟨k, hk, hdup⟩
        exact ⟨summaryKey k, (h _).mpr (List.mem_map_of_mem summaryKey hk), hdup⟩
    simp only [deduplicateAux, dedupKeepSpec, hany]
    split
    · exact ih seen kept h
    · have h2 : ∀ s, s ∈ summaryKey c :: seen ↔ s ∈ (kept ++ [c]).map summaryKey := by
        intro s
        simp only [List.mem_cons, h, List.map_append, List.mem_append, List.map_cons,
          List.map_nil, List.mem_singleton]
        tauto
      rw [ih (summaryKey c :: seen) (kept ++ [c]) h2]

theorem deduplicateAux_idem :
    ∀ (cs : List GitHubCommit) (seen : List Str),
      deduplicateAux seen (deduplicateAux seen cs) = deduplicateAux seen cs := by
  intro cs
  induction cs with
  | nil => intro seen; rfl
  | cons c cs ih =>
    intro seen
    simp only [deduplicateAux]
    by_cases h : (seen.any fun s => isDuplicateOf (summaryKey c) s) = true
    · simp only [if_pos h]
      exact ih seen
    · simp only [if_neg h, deduplicateAux, if_neg h]
      rw [ih (summaryKey c :: seen)]

theorem deduplicateAux_eq_exec :
    ∀ (cs : List GitHubCommit) (seen : List Str),
      deduplicateAux seen cs = deduplicateAuxExec seen cs := by
  intro cs
  induction cs with
  | nil => intro seen; rfl
  | cons c cs ih =>
    intro seen
    simp only [deduplicateAux, deduplicateAuxExec, isDuplicateOf_eq_exec, ih]

theorem matchConventional_bang :
    ∀ (line : Str) (m : ConventionalMatch),
      matchConventional line = some m → m.bang = true → (['!', ':'] : Str) <:+: line := by
  intro line m h hb
  unfold matchConventional at h
  simp only [] at h
  split at h
  · exact absurd h (by simp)
  · split at h
    · exact absurd h (by simp)
    · rename_i sc rest2 heqScope
      have hrest2 : rest2 <:+ line := by
        split at heqScope
        · rename_i c r heq2
          split at heqScope
          · rename_i hco
            split at heqScope
            · exact absurd heqScope (by simp)
            · split at heqScope
              · rename_i c2 r2 heq3
                split at heqScope
                · injection heqScope with heqPair
                  injection heqPair with h1 h2
                  subst h2
                  have s1 : r2 <:+ c2 :: r2 := List.suffix_cons c2 r2
                  have s2 : c2 :: r2 <:+ r := heq3 ▸ List.dropWhile_suffix _
                  have s3 : r <:+ c :: r := List.suffix_cons c r
                  have s4 : c :: r <:+ line := heq2 ▸ List.dropWhile_suffix _
                  exact s1.trans (s2.trans (s3.trans s4))
                · exact absurd heqScope (by simp)
              · exact absurd heqScope (by simp)
          · injection heqScope with heqPair
            injection heqPair with h1 h2
            subst h2
            exact List.dropWhile_suffix _
        · rename_i heq2
          injection heqScope with heqPair
          injection heqPair with h1 h2
          subst h2
          exact List.dropWhile_suffix _
      cases rest2 with
      | nil => exact absurd h (by simp)
      | cons c2 r =>
        by_cases hc2 : c2 = '!'
        · subst hc2
          dsimp only at h
          rw [if_pos rfl] at h
          dsimp only at h
          cases r with
          | nil => exact absurd h (by simp)
          | cons c3 rest4 =>
            by_cases hc3 : c3 = ':'
            · subst hc3
              have hpre : (['!', ':'] : Str) <+: '!' :: ':' :: rest4 := ⟨rest4, rfl⟩
              exact hpre.isInfix.trans hrest2.isInfix
            · dsimp only at h
              rw [if_neg hc3] at h
              exact absurd h (by simp)
        · dsimp only at h
          rw [if_neg hc2] at h
          dsimp only at h
          by_cases hc3 : c2 = ':'
          · rw [if_pos hc3] at h
            split at h
            all_goals try split at h
            all_goals try split at h
            all_goals
              first
              | (injection h with h1
                 rw [← h1] at hb
                 exact absurd hb (by simp))
              | exact absurd h (by simp)
          · rw [if_neg hc3] at h
            exact absurd h (by simp)

/-- C1: for every input string `message`, if
`parseConventionalCommit(message).breaking` is true then
`inferCategory(message)` returns `breaking_changes`, regardless of the parsed
type or of any keyword content of the message. -/
theorem breaking_implies_breaking_changes :
    ∀ message : Str, (parseConventionalCommit message).breaking = true →
      inferCategory message = ChangelogCategory.breaking_changes := by
  intro message h
  unfold inferCategory
  simp [h]

/-- Witness for C1 at the concrete message `feat!: drop legacy API`. -/
theorem breaking_implies_breaking_changes_witness :
    inferCategory ("feat!: drop legacy API".toList) = ChangelogCategory.breaking_changes :=
  breaking_implies_breaking_changes ("feat!: drop legacy API".toList) (by decide)

/-- C5 fails as stated: in `say: hello!: world` the first line contains `!:`,
so the code sets `breaking = true`, although the message does not contain
`BREAKING CHANGE` and the structured header `type[(scope)][!]: description`
matches without a bang before its colon. -/
theorem breaking_detection_counterexample :
    ¬ ((parseConventionalCommit ("say: hello!: world".toList)).breaking = true ↔
        (strIncludes ("say: hello!: world".toList) ("BREAKING CHANGE".toList) = true ∨
          headerBang (firstLineOf ("say: hello!: world".toList)) = true)) := by
  decide

/-- C5 (amended): `parseConventionalCommit(message).breaking` is true exactly
when the raw message contains the literal `BREAKING CHANGE` (case-sensitive)
or the first line contains the two-character substring `!:` anywhere. -/
theorem breaking_flag_characterization :
    ∀ message : Str,
      (parseConventionalCommit message).breaking =
        (strIncludes message ("BREAKING CHANGE".toList) ||
          strIncludes (firstLineOf message) ("!:".toList)) := by
  intro message
  cases hm : matchConventional (firstLineOf message) with
  | none =>
    unfold parseConventionalCommit
    simp only [hm]
  | some m =>
    unfold parseConventionalCommit
    simp only [hm]
    cases hbang : m.bang with
    | false => simp [hbang]
    | true =>
      have hinfix : (['!', ':'] : Str) <:+: firstLineOf message :=
        matchConventional_bang _ m hm hbang
      have hinc : strIncludes (firstLineOf message) (['!', ':'] : Str) = true := by
        rw [strIncludes, decide_eq_true_eq]
        exact hinfix
      simp [hbang, hinc]

/-- C6: `shouldExcludeCommit` returns true exactly when the lower-cased
message contains some member of the union of the built-in exclusion list
with the lower-cased extra patterns as a substring; in particular the merge
pull request message is excluded and the dark-mode message is not. -/
theorem exclusion_characterization :
    (∀ (message : Str) (pats : List Str),
        (shouldExcludeCommit message pats = true ↔
          ∃ p ∈ defaultExclusions ++ pats.map toLowerCase, p <:+: toLowerCase message)) ∧
      shouldExcludeCommit ("Merge pull request #42 from foo/bar".toList) [] = true ∧
      shouldExcludeCommit ("Add dark mode toggle".toList) [] = false := by
  refine ⟨?_, by decide, by decide⟩
  intro message pats
  unfold shouldExcludeCommit
  rw [List.any_eq_true]
  have hmap : (defaultExclusions ++ pats).map toLowerCase =
      defaultExclusions ++ pats.map toLowerCase := by
    rw [List.map_append]
    congr 1
  rw [hmap]
  constructor
  · rintro ⟨p, hp, hinc⟩
    exact ⟨p, hp, by rwa [strIncludes, decide_eq_true_eq] at hinc⟩
  · rintro ⟨p, hp, hinf⟩
    exact ⟨p, hp, by rw [strIncludes, decide_eq_true_eq]; exact hinf⟩

/-- C8: the conventional parsing round-trip on `fix(auth): resolve login
loop`: type `fix`, scope `auth`, description `resolve login loop`, not
breaking, and the inferred category is `bug_fixes`. -/
theorem parse_roundtrip_example :
    parseConventionalCommit ("fix(auth): resolve login loop".toList) =
      ⟨some ("fix".toList), some ("auth".toList), ("resolve login loop".toList), none, false,
        ("fix(auth): resolve login loop".toList)⟩ ∧
      inferCategory ("fix(auth): resolve login loop".toList) =
        ChangelogCategory.bug_fixes :=
  ⟨by decide, by decide⟩

/-- C10: an empty string among the caller-supplied extra patterns makes
`shouldExcludeCommit` return true for every message (the empty string is a
substring of every lower-cased message). -/
theorem empty_pattern_excludes_all :
    ∀ (message : Str) (pats : List Str), ([] : Str) ∈ pats →
      shouldExcludeCommit message pats = true := by
  intro message pats h
  unfold shouldExcludeCommit
  rw [List.any_eq_true]
  refine ⟨[], ?_, ?_⟩
  · exact List.mem_map.mpr ⟨[], List.mem_append_right _ h, rfl⟩
  · rw [strIncludes, decide_eq_true_eq]
    exact List.nil_infix

/-- Witness for C10: the empty pattern excludes `Add dark mode toggle`. -/
theorem empty_pattern_excludes_all_witness :
    shouldExcludeCommit ("Add dark mode toggle".toList) [([] : Str)] = true :=
  empty_pattern_excludes_all ("Add dark mode toggle".toList) [([] : Str)] (by simp)

theorem pushCommit_get (g : GroupedCommits) (cat cat' : ChangelogCategory) (c : GitHubCommit) :
    (pushCommit g cat c).get cat' =
      if cat = cat' then g.get cat' ++ [c] else g.get cat' := by
  cases cat <;> cases cat' <;> simp [pushCommit, GroupedCommits.get]

theorem groupFold_get (pats : List Str) :
    ∀ (commits : List GitHubCommit) (g : GroupedCommits) (cat : ChangelogCategory),
      (commits.foldl
          (fun g c =>
            if shouldExcludeCommit c.commit.message pats then g
            else pushCommit g (inferCategory c.commit.message) c) g).get cat =
        g.get cat ++
          commits.filter
            (fun c => !shouldExcludeCommit c.commit.message pats &&
              decide (inferCategory c.commit.message = cat)) := by
  intro commits
  induction commits with
  | nil => intro g cat; simp
  | cons c cs ih =>
    intro g cat
    rw [List.foldl_cons, List.filter_cons]
    by_cases hex : shouldExcludeCommit c.commit.message pats = true
    · rw [if_pos hex]
      have hp : (!shouldExcludeCommit c.commit.message pats &&
          decide (inferCategory c.commit.message = cat)) = false := by
        rw [hex]
        rfl
      rw [hp]
      simp only [Bool.false_eq_true, if_false]
      exact ih g cat
    · rw [if_neg hex]
      have hexf : shouldExcludeCommit c.commit.message pats = false :=
        Bool.eq_false_iff.mpr hex
      rw [ih (pushCommit g (inferCategory c.commit.message) c) cat, pushCommit_get]
      by_cases hcat : inferCategory c.commit.message = cat
      · rw [if_pos hcat]
        have hp : (!shouldExcludeCommit c.commit.message pats &&
            decide (inferCategory c.commit.message = cat)) = true := by
          rw [hexf, hcat]
          simp
        rw [hp]
        simp
      · rw [if_neg hcat]
        have hp : (!shouldExcludeCommit c.commit.message pats &&
            decide (inferCategory c.commit.message = cat)) = false := by
          rw [hexf]
          simp [hcat]
        rw [hp]
        simp

theorem keywordCategory_chores_of_no_hits (message : Str)
    (hkw : hitsNoFallbackKeyword message = true) :
    keywordCategory (toLowerCase message) = ChangelogCategory.chores := by
  unfold hitsNoFallbackKeyword fallbackKeywords at hkw
  simp only [List.all_cons, List.all_nil, Bool.and_eq_true, Bool.not_eq_true',
    Bool.and_true] at hkw
  obtain ⟨k1, k2, k3, k4, k5, k6, k7, k8, k9, k10, k11, k12, k13, k14, k15, k16, k17, k18,
    k19, k20, k21, k22⟩ := hkw
  unfold keywordCategory
  rw [k1, k2, k3, k4, k5, k6, k7, k8, k9, k10, k11, k12, k13, k14, k15, k16, k17, k18, k19,
    k20, k21, k22]
  rfl

/-- C2 fails as stated: `deduplicateCommits` keys on the *trimmed* first
line.  With messages `" a"` and `"a"` the second commit is dropped (the
trimmed summaries are identical), although the similarity of the lower-cased
*untrimmed* first lines is only `1/2`, not above `0.8` — so the claimed
drop criterion does not hold for the only earlier kept commit. -/
theorem dedup_first_line_counterexample :
    deduplicateCommits [cexCommitA, cexCommitB] = [cexCommitA] ∧
      ¬ ((0.8 : ℚ) <
          calculateSimilarity (rawFirstLineKey cexCommitB) (rawFirstLineKey cexCommitA)) := by
  constructor
  · rw [show deduplicateCommits [cexCommitA, cexCommitB] =
        deduplicateAuxExec [] [cexCommitA, cexCommitB] from deduplicateAux_eq_exec _ []]
    decide
  · have h1 : rawFirstLineKey cexCommitB = ['a'] := by decide
    have h2 : rawFirstLineKey cexCommitA = [' ', 'a'] := by decide
    rw [h1, h2, calculateSimilarity_eq]
    have hlev : levenshteinRec ['a'] [' ', 'a'] = 1 := by
      rw [levenshteinRec_singleton]
      decide
    have hval : similaritySpec ['a'] [' ', 'a'] = 1 / 2 := by
      unfold similaritySpec
      rw [hlev]
      norm_num
    rw [hval]
    norm_num

/-- C2 (amended, with the summary being the lower-cased *trimmed* first
line): `deduplicateCommits` is a stable order-preserving keep policy — the
output is a subsequence of the input, the first commit of a non-empty input
is always kept, the result equals the left-to-right keep policy that drops a
commit exactly when its summary has similarity above `0.8` with the summary
of some earlier kept commit, and on the three-commit example exactly the
first and third commits survive, in order. -/
theorem dedup_keep_policy :
    (∀ commits : List GitHubCommit,
        (deduplicateCommits commits).Sublist commits ∧
        (∀ (c : GitHubCommit) (cs : List GitHubCommit), commits = c :: cs →
          ∃ rest, deduplicateCommits commits = c :: rest) ∧
        deduplicateCommits commits = dedupKeepSpec [] commits) ∧
      deduplicateCommits [fixLoginCommit, fixLoginBangCommit, addFeatureCommit] =
        [fixLoginCommit, addFeatureCommit] := by
  constructor
  · intro commits
    refine ⟨deduplicateAux_sublist commits [], ?_, ?_⟩
    · rintro c cs rfl
      exact ⟨deduplicateAux [summaryKey c] cs, by simp [deduplicateCommits, deduplicateAux]⟩
    · exact deduplicateAux_eq_keepSpec commits [] [] (by simp)
  · rw [show deduplicateCommits [fixLoginCommit, fixLoginBangCommit, addFeatureCommit] =
        deduplicateAuxExec [] [fixLoginCommit, fixLoginBangCommit, addFeatureCommit] from
      deduplicateAux_eq_exec _ []]
    decide

/-- Witness for C2: on the singleton list the first commit is kept. -/
theorem dedup_keep_policy_witness :
    ∃ rest, deduplicateCommits [darkModeCommit] = darkModeCommit :: rest :=
  ((dedup_keep_policy.1 [darkModeCommit]).2.1) darkModeCommit [] rfl

/-- C3: `deduplicateCommits` is idempotent. -/
theorem dedup_idempotent :
    ∀ commits : List GitHubCommit,
      deduplicateCommits (deduplicateCommits commits) = deduplicateCommits commits := by
  intro commits
  exact deduplicateAux_idem commits []

/-- C4: `calculateSimilarity(a, b)` equals
`(max(len(a), len(b)) − levenshtein(a, b)) / max(len(a), len(b))` (value `1`
when both strings are empty), where the levenshtein distance computed by
`getEditDistance` is the classic recurrence `levenshteinRec`; consequently
the similarity lies in `[0, 1]`, `calculateSimilarity(a, a) = 1`, and
`calculateSimilarity("", "") = 1`. -/
theorem similarity_formula_and_bounds :
    ∀ a b : Str,
      calculateSimilarity a b = similaritySpec a b ∧
      getEditDistance a b = levenshteinRec a b ∧
      0 ≤ calculateSimilarity a b ∧ calculateSimilarity a b ≤ 1 ∧
      calculateSimilarity a a = 1 ∧
      calculateSimilarity ([] : Str) ([] : Str) = 1 := by
  intro a b
  refine ⟨calculateSimilarity_eq a b, getEditDistance_eq a b, ?_, ?_, ?_, rfl⟩
  · rw [calculateSimilarity_eq]
    exact similaritySpec_nonneg a b
  · rw [calculateSimilarity_eq]
    exact similaritySpec_le_one a b
  · rw [calculateSimilarity_eq]
    exact similaritySpec_self a

/-- Partition property of the idealized grouping (total `inferCategory`):
each category's group is exactly the input filtered to the non-excluded
commits that `inferCategory` assigns to it (hence input order is kept within
each group and the groups' union is the set of non-excluded commits);
excluded commits appear in no group; a non-excluded commit appears in its
inferred category's group and in no other.  This is what the spec intends —
the real code breaks it on prototype-key types, see
`group_partition_code_bug`. -/
theorem group_partition_ideal :
    ∀ (commits : List GitHubCommit) (pats : List Str),
      (∀ cat, (groupCommitsByCategory commits pats).get cat =
          commits.filter
            (fun c => !shouldExcludeCommit c.commit.message pats &&
              decide (inferCategory c.commit.message = cat))) ∧
      (∀ c, c ∈ commits → shouldExcludeCommit c.commit.message pats = true →
        ∀ cat, c ∉ (groupCommitsByCategory commits pats).get cat) ∧
      (∀ c, c ∈ commits → shouldExcludeCommit c.commit.message pats = false →
        c ∈ (groupCommitsByCategory commits pats).get (inferCategory c.commit.message) ∧
        ∀ cat, c ∈ (groupCommitsByCategory commits pats).get cat →
          cat = inferCategory c.commit.message) := by
  intro commits pats
  have hempty : ∀ cat, emptyGrouped.get cat = [] := by
    intro cat
    cases cat <;> rfl
  have hget : ∀ cat, (groupCommitsByCategory commits pats).get cat =
      commits.filter
        (fun c => !shouldExcludeCommit c.commit.message pats &&
          decide (inferCategory c.commit.message = cat)) := by
    intro cat
    unfold groupCommitsByCategory
    rw [groupFold_get pats commits emptyGrouped cat, hempty, List.nil_append]
  refine ⟨hget, ?_, ?_⟩
  · intro c _ hex cat hmem
    rw [hget cat] at hmem
    have hpred := (List.mem_filter.mp hmem).2
    rw [hex] at hpred
    simp at hpred
  · intro c hc hex
    constructor
    · rw [hget (inferCategory c.commit.message)]
      refine List.mem_filter.mpr ⟨hc, ?_⟩
      rw [hex]
      simp
    · intro cat hmem
      rw [hget cat] at hmem
      have hpred := (List.mem_filter.mp hmem).2
      simp only [Bool.and_eq_true] at hpred
      exact (of_decide_eq_true hpred.2).symm

/-- Instance of the ideal partition property: the dark-mode commit lands in
its inferred category's group. -/
theorem group_partition_ideal_witness :
    darkModeCommit ∈ (groupCommitsByCategory [darkModeCommit] []).get
        (inferCategory darkModeCommit.commit.message) :=
  (((group_partition_ideal [darkModeCommit] []).2.2) darkModeCommit (by simp) (by decide)).1

/-- C7 is the intended behaviour but the code fails it: `constructor: x`
passes the noise filter and parses with type `constructor`; the lower-cased
type hits the prototype-inherited key of the `typeMap` object, so the truthy
lookup makes `inferCategory` return the `Object` constructor instead of a
category, and `grouped[category].push` then throws a `TypeError` — no
grouping is produced at all (modelled by `none`), so the commit appears in
no category group. -/
theorem group_partition_code_bug :
    shouldExcludeCommit ("constructor: x".toList) [] = false ∧
      (parseConventionalCommit ("constructor: x".toList)).type =
        some ("constructor".toList) ∧
      inferCategoryJs ("constructor: x".toList) =
        JsCategoryValue.protoValue ("constructor".toList) ∧
      groupCommitsByCategoryJs [constructorCommit] [] = none :=
  ⟨by decide, by decide, by decide, by decide⟩

/-- C9 fails as stated on two counts.  The message `!: hello` has no
structured type and hits none of the fallback keywords, yet its first line
contains `!:`, so the parsed breaking flag is true and the category is
`breaking_changes`, not `chores`.  And on `constructor: x` the faithful
lookup finds the truthy prototype-inherited key, so the classifier does not
return one of the six categories at all. -/
theorem fallback_default_counterexample :
    ((parseConventionalCommit ("!: hello".toList)).type = none ∧
      hitsNoFallbackKeyword ("!: hello".toList) = true ∧
      inferCategory ("!: hello".toList) = ChangelogCategory.breaking_changes ∧
      inferCategoryJs ("!: hello".toList) =
        JsCategoryValue.category ChangelogCategory.breaking_changes ∧
      ChangelogCategory.breaking_changes ≠ ChangelogCategory.chores) ∧
    ((parseConventionalCommit ("constructor: x".toList)).breaking = false ∧
      inferCategoryJs ("constructor: x".toList) =
        JsCategoryValue.protoValue ("constructor".toList) ∧
      ∀ c : ChangelogCategory,
        inferCategoryJs ("constructor: x".toList) ≠ JsCategoryValue.category c) := by
  refine ⟨⟨by decide, by decide, by decide, by decide, by decide⟩,
    by decide, by decide, ?_⟩
  intro c h
  have he : inferCategoryJs ("constructor: x".toList) =
      JsCategoryValue.protoValue ("constructor".toList) := by decide
  rw [he] at h
  exact JsCategoryValue.noConfusion h

/-- C9 (amended): under the faithful lookup semantics the classifier
returns one of the six categories unless the lower-cased parsed type is one
of the prototype-inherited `typeMap` keys (`constructor`, `__proto__`),
where the truthy prototype-chain lookup makes it return that non-category
value (a code slip: the declared return type is `ChangelogCategory`); and
when the message has no structured type, its parsed breaking flag is false,
and it matches none of the fallback keywords, the result is exactly
`chores`. -/
theorem fallback_default :
    ∀ message : Str,
      ((∃ c, inferCategoryJs message = JsCategoryValue.category c) ∨
        (∃ t, (parseConventionalCommit message).type = some t ∧
          toLowerCase t ∈ protoKeys ∧
          inferCategoryJs message = JsCategoryValue.protoValue (toLowerCase t))) ∧
      ((parseConventionalCommit message).type = none →
        (parseConventionalCommit message).breaking = false →
        hitsNoFallbackKeyword message = true →
        inferCategoryJs message = JsCategoryValue.category ChangelogCategory.chores) := by
  intro message
  constructor
  · cases hbreak : (parseConventionalCommit message).breaking with
    | true =>
      refine Or.inl ⟨ChangelogCategory.breaking_changes, ?_⟩
      unfold inferCategoryJs
      dsimp only
      rw [hbreak]
      rfl
    | false =>
      cases htype : (parseConventionalCommit message).type with
      | none =>
        refine Or.inl ⟨keywordCategory (toLowerCase message), ?_⟩
        unfold inferCategoryJs
        dsimp only
        rw [hbreak, htype]
        rfl
      | some t =>
        cases hget : typeMapGet (toLowerCase t) with
        | none =>
          refine Or.inl ⟨keywordCategory (toLowerCase message), ?_⟩
          unfold inferCategoryJs
          dsimp only
          rw [hbreak, htype]
          simp only [Bool.false_eq_true, if_false]
          rw [hget]
        | some v =>
          cases v with
          | category c =>
            refine Or.inl ⟨c, ?_⟩
            unfold inferCategoryJs
            dsimp only
            rw [hbreak, htype]
            simp only [Bool.false_eq_true, if_false]
            rw [hget]
          | protoValue k =>
            have hk : toLowerCase t ∈ protoKeys ∧ k = toLowerCase t := by
              unfold typeMapGet at hget
              split at hget
              · exact absurd hget (by simp)
              · split at hget
                · rename_i hmem
                  refine ⟨hmem, ?_⟩
                  injection hget with h1
                  injection h1 with h2
                  exact h2.symm
                · exact absurd hget (by simp)
            refine Or.inr ⟨t, rfl, hk.1, ?_⟩
            unfold inferCategoryJs
            dsimp only
            rw [hbreak, htype]
            simp only [Bool.false_eq_true, if_false]
            rw [hget, hk.2]
  · intro htype hbreak hkw
    unfold inferCategoryJs
    dsimp only
    rw [hbreak, htype]
    simp only [Bool.false_eq_true, if_false]
    exact congrArg JsCategoryValue.category (keywordCategory_chores_of_no_hits message hkw)

/-- Witness for C9 at the spec's example message `xyz123 misc update zz`. -/
theorem fallback_default_witness :
    inferCategoryJs ("xyz123 misc update zz".toList) =
      JsCategoryValue.category ChangelogCategory.chores :=
  (fallback_default ("xyz123 misc update zz".toList)).2 (by decide) (by decide) (by decide)
